import Mathlib

/-!
# Verification of the mini-batcher parameter expansion core

This file gives a shallow embedding of the parameter-expansion logic of the
mini-batcher frontend (`frontend/src/api.ts` / `CreateTask` component):
`parseValues`, `cartesianProduct`, `generateParams` and the submission guard
of `handleSubmit`, together with a small transition-system model of the
scheduler described by the design document (whose Python source is not part
of this tree).

Numbers are modelled as rationals `ℚ`.  The JavaScript code manipulates
IEEE-754 doubles; rational arithmetic agrees with double arithmetic exactly
as long as every intermediate value is a short decimal fraction or an
integer of magnitude below `2^53`, which covers the concrete inputs and
value-level properties verified here.  The one place where the difference
is observable is the range loop: on doubles the increment `i += step` stops
advancing once `i` reaches `2^53` (the rounded sum falls back onto `i`), so
the real loop can run forever where the exact-arithmetic loop terminates —
this is recorded as the C9 code bug below (`rangeLoopF`).
`parseInt`/`parseFloat` are modelled in their decimal behaviour (leading
whitespace, an optional single sign, a longest digit prefix, and for
`parseFloat` an optional fractional part); the exotic forms (hexadecimal
prefixes, exponents, `Infinity`) never arise in the grammar the spec
describes and are not modelled.
-/

namespace MiniBatcher

/-- JavaScript `String.prototype.split` with a single-character separator,
on the character list of the string: always returns at least one piece,
`"" ↦ [""]`, and separators at the ends produce empty pieces. -/
def splitOnChar (c : Char) : List Char → List (List Char)
  | [] => [[]]
  | x :: xs =>
    let rest := splitOnChar c xs
    if x = c then [] :: rest else (x :: rest.headD []) :: rest.tail

/-- JavaScript `String.prototype.trim` (restricted to ASCII whitespace). -/
def trim (cs : List Char) : List Char :=
  ((cs.dropWhile Char.isWhitespace).reverse.dropWhile Char.isWhitespace).reverse

/-- Value of a list of decimal digits, most significant first. -/
def digitsVal (ds : List Char) : Nat :=
  ds.foldl (fun acc c => 10 * acc + (c.toNat - Char.toNat '0')) 0

/-- The longest digit prefix of the input, as a number; `none` if there is
no leading digit. -/
def parseNatPrefix (cs : List Char) : Option Nat :=
  let ds := cs.takeWhile Char.isDigit
  if ds.isEmpty then none else some (digitsVal ds)

/-- The optional single sign both `parseInt` and `parseFloat` accept after
leading whitespace: the sign factor and the remaining characters. -/
def parseSign (t : List Char) : Int × List Char :=
  match t with
  | [] => (1, [])
  | c :: r => if c = '-' then (-1, r) else if c = '+' then (1, r) else (1, t)

/-- JavaScript `parseInt(s)` (decimal): skip leading whitespace, an optional
single sign, then the longest digit prefix; NaN (here `none`) if no digit
follows. -/
def parseInt (cs : List Char) : Option Int :=
  let t := cs.dropWhile Char.isWhitespace
  let sg := parseSign t
  (parseNatPrefix sg.2).map (fun n => sg.1 * (n : Int))

/-- JavaScript `parseFloat(s)` (decimal, no exponent): skip leading
whitespace, an optional single sign, then `digits`, `digits.digits` or
`.digits`; NaN (here `none`) when no digit is found in either position. -/
def parseFloat (cs : List Char) : Option ℚ :=
  let t := cs.dropWhile Char.isWhitespace
  let sg := parseSign t
  let intDigits := sg.2.takeWhile Char.isDigit
  let afterInt := sg.2.dropWhile Char.isDigit
  if afterInt.headD ' ' = '.' then
    let fracDigits := afterInt.tail.takeWhile Char.isDigit
    if intDigits.isEmpty && fracDigits.isEmpty then none
    else some (mkRat
      (sg.1 * ((digitsVal intDigits : Int) * (10 : Int) ^ fracDigits.length
               + (digitsVal fracDigits : Int)))
      ((10 : Nat) ^ fracDigits.length))
  else
    if intDigits.isEmpty then none
    else some (mkRat (sg.1 * (digitsVal intDigits : Int)) 1)

/-- Whether a segment has a leading numeric prefix in the `parseFloat`
sense: after the skipped whitespace and the optional sign, the first
character is a digit, or is a decimal point immediately followed by a
digit.  This is the spec-side characterisation used to state when a literal
segment yields a value. -/
def hasNumericLead (cs : List Char) : Bool :=
  let t := cs.dropWhile Char.isWhitespace
  let t2 := (parseSign t).2
  match t2 with
  | [] => false
  | c :: rest => c.isDigit || (c = '.' && (rest.headD 'x').isDigit)

/-- The body of the range loop `for (let i = start; i <= end; i += step)`,
with explicit fuel so that evaluation is structural; the caller supplies
enough fuel for the loop to run to completion.  The increment is taken in
exact integer arithmetic — faithful to the source only while `i` stays
below `2^53`, where double addition of integers is exact; the source's
double increment stops advancing at `2^53`, see `rangeLoopF` and the C9
theorem. -/
def rangeGo : Nat → Int → Int → Int → List ℚ
  | 0, _, _, _ => []
  | n + 1, i, e, step => if i ≤ e then (i : ℚ) :: rangeGo n (i + step) e step else []

/-- The same source loop with its increment abstracted: `next i` stands for
the JavaScript `i += step`, which on IEEE-754 doubles is not guaranteed to
advance `i` (at `i = 2^53` the sum `i + 1` rounds back to `i`).  The loop
is observed through fuel: `none` means the fuel ran out with the loop still
running, `some vs` that the loop exited having pushed `vs`. -/
def rangeLoopF (next : Int → Int) : Nat → Int → Int → Option (List ℚ)
  | 0, i, e => if i ≤ e then none else some []
  | n + 1, i, e =>
    if i ≤ e then (rangeLoopF next n (next i) e).map (fun vs => (i : ℚ) :: vs)
    else some []

/-- The guarded range loop of `parseValues`: when `0 < step`, enumerate
`start, start+step, …` while `≤ e`; otherwise (the `step > 0` guard fails)
contribute nothing.  `(e - start).toNat + 1` iterations always suffice. -/
def rangeValues (start e step : Int) : List ℚ :=
  if 0 < step then rangeGo ((e - start).toNat + 1) start e step else []

/-- The three numbers a range segment is parsed into:
`const [range, stepStr] = part.split(":"); const [startStr, endStr] = range.split("-")`,
then `parseInt(startStr)`, `parseInt(endStr)` (NaN when `endStr` is
`undefined`), and the step — `1` when `stepStr` is `undefined` or `""`
(falsy), otherwise `parseInt(stepStr)`. -/
def rangeParts (part : List Char) : Option Int × Option Int × Option Int :=
  let pieces := splitOnChar ':' part
  let range := pieces.headD []
  let stepStr := pieces[1]?
  let rpieces := splitOnChar '-' range
  let startStr := rpieces.headD []
  let endStr := rpieces[1]?
  let startNum := parseInt startStr
  let endNum := match endStr with
    | none => none
    | some s => parseInt s
  let stepNum := match stepStr with
    | none => some (1 : Int)
    | some s => if s.isEmpty then some 1 else parseInt s
  (startNum, endNum, stepNum)

/-- One iteration of the `for (const part of parts)` loop of `parseValues`:
a segment containing `"-"` is a range (emitted only when both bounds are
numeric and the step is a positive number), any other segment is a literal
parsed with `parseFloat` (dropped when NaN). -/
def parseSegment (part : List Char) : List ℚ :=
  if part.contains '-' then
    match rangeParts part with
    | (some s, some e, some st) => rangeValues s e st
    | _ => []
  else
    match parseFloat part with
    | some v => [v]
    | none => []

/-- `input.split(",").map(s => s.trim())`. -/
def segmentsOf (input : String) : List (List Char) :=
  (splitOnChar ',' input.data).map trim

/-- The value-specification parser `parseValues` of `CreateTask`:
split on commas, trim each segment, and concatenate each segment's
contribution. -/
def parseValues (input : String) : List ℚ :=
  (segmentsOf input).flatMap parseSegment

/-- `parseSegment` with the range loop run on externally supplied fuel
instead of the sufficient amount: the vehicle for stating that the
source's unbounded `for` loop terminates. -/
def parseSegmentFuel (fuel : Nat) (part : List Char) : List ℚ :=
  if part.contains '-' then
    match rangeParts part with
    | (some s, some e, some st) => if 0 < st then rangeGo fuel s e st else []
    | _ => []
  else
    match parseFloat part with
    | some v => [v]
    | none => []

/-- The number of loop iterations segment `part` actually needs (zero for
dropped or literal segments). -/
def segFuelNeed (part : List Char) : Nat :=
  if part.contains '-' then
    match rangeParts part with
    | (some s, some e, some st) => if 0 < st then (e - s).toNat + 1 else 0
    | _ => 0
  else 0

/-- `parseValues` with every range loop run on the given fuel. -/
def parseValuesFuel (fuel : Nat) (input : String) : List ℚ :=
  (segmentsOf input).flatMap (parseSegmentFuel fuel)

/-- Fuel sufficient for every segment of the input. -/
def neededFuel (input : String) : Nat :=
  ((segmentsOf input).map segFuelNeed).foldr max 0

/-- One `reduce` step of `cartesianProduct`:
`acc.flatMap(x => arr.map(y => [...x, y]))`. -/
def cpExtend {α : Type} (acc : List (List α)) (arr : List α) : List (List α) :=
  acc.flatMap (fun x => arr.map (fun y => x ++ [y]))

/-- `cartesianProduct` of `CreateTask`: `reduce` over the input arrays with
accumulator `[[]]`, each step extending every partial tuple with every value
of the next array; an empty input list short-circuits to `[[]]` (which the
`reduce` would return too). -/
def cartesianProduct {α : Type} (arrays : List (List α)) : List (List α) :=
  if arrays.isEmpty then [[]]
  else arrays.foldl cpExtend [[]]

/-- One dimension's UI configuration: the enable checkbox and the
value-specification string. -/
structure ParamConfig where
  enabled : Bool
  values : String
deriving DecidableEq

/-- One override triple `{node_id, field, value}` of `CreateTaskParams`. -/
structure Override where
  node_id : String
  field : String
  value : ℚ
deriving DecidableEq

/-- The contribution of one dimension to `paramArrays` in `generateParams`:
pushed only when the checkbox is enabled and the parsed value list is
non-empty. -/
def participatingDim (fieldName : String) (cfg : ParamConfig) : List (String × List ℚ) :=
  if cfg.enabled then
    let vs := parseValues cfg.values
    if vs.length > 0 then [(fieldName, vs)] else []
  else []

/-- The `paramArrays` list of `generateParams`: seed, steps, cfg, in the
order the source pushes them. -/
def participating (sc stc cc : ParamConfig) : List (String × List ℚ) :=
  participatingDim "seed" sc ++ participatingDim "steps" stc ++ participatingDim "cfg" cc

/-- `generateParams` of `CreateTask`: when no dimension participates, return
`[]`; otherwise take the cartesian product of the participating value lists
and turn each tuple into one override triple per dimension (the `forEach`
with index is rendered as a `zipWith` against the field names, the lists
having equal length). -/
def generateParams (nodeId : String) (sc stc cc : ParamConfig) : List (List Override) :=
  let paramArrays := participating sc stc cc
  if paramArrays.length = 0 then []
  else
    let valueArrays := paramArrays.map Prod.snd
    let combinations := cartesianProduct valueArrays
    combinations.map (fun combo =>
      List.zipWith (fun f v => Override.mk nodeId f v) (paramArrays.map Prod.fst) combo)

/-- The observable outcome of one `handleSubmit` run: which guard rejected
the submission, or the `createTask` call with its combination list. -/
inductive SubmitAction where
  | rejectedEmptyName : SubmitAction
  | rejectedNoParams : SubmitAction
  | rejectedNoWorkflow : SubmitAction
  | createdTask : List (List Override) → SubmitAction
deriving DecidableEq

/-- The control flow of `handleSubmit` in `CreateTask`, up to the
`createTask` API call: reject a blank name, then reject an empty
`generateParams()` result with the "no valid parameters" error, then reject
a missing or key-less workflow, and only then call `createTask` with the
combination list.  The workflow obtained from `getWorkflow` is modelled by
its key list (`Object.keys`), `none` standing for the `null` failure path. -/
def handleSubmit (name nodeId : String) (sc stc cc : ParamConfig)
    (workflowKeys : Option (List String)) : SubmitAction :=
  if trim name.data = [] then .rejectedEmptyName
  else
    let paramsList := generateParams nodeId sc stc cc
    if paramsList.length = 0 then .rejectedNoParams
    else
      match workflowKeys with
      | none => .rejectedNoWorkflow
      | some ks => if ks.length = 0 then .rejectedNoWorkflow else .createdTask paramsList

/-- Modelled from the spec: the scheduler (`service/scheduler.py`, described
in §4.3/§5 of the design document) is not part of this tree.  The single
worker is either idle (polling), about to submit the next of `n` remaining
combinations of the claimed task, or blocked awaiting the outcome of the one
submission it has issued. -/
inductive WorkerPhase where
  | idle : WorkerPhase
  | processing : Nat → WorkerPhase
  | awaiting : Nat → WorkerPhase
deriving DecidableEq

/-- Modelled from the spec: the system state relevant to admission control —
the worker's phase together with the number of submissions currently
outstanding against the Execution Engine Adapter. -/
structure SchedState where
  phase : WorkerPhase
  inFlight : Nat
deriving DecidableEq

/-- Modelled from the spec: the scheduler's transitions per §4.3.  An idle
worker may poll and find nothing, or claim a pending task with `n`
combinations; with combinations remaining it submits one (the only
transition that opens a submission) and then blocks until that submission
terminally succeeds (advance to the next combination) or fails (fail-fast:
abandon the task); with none remaining it completes the task and returns to
polling. -/
inductive SchedStep : SchedState → SchedState → Prop where
  | pollIdle (f : Nat) : SchedStep ⟨.idle, f⟩ ⟨.idle, f⟩
  | claim (n f : Nat) : SchedStep ⟨.idle, f⟩ ⟨.processing n, f⟩
  | submit (n f : Nat) : SchedStep ⟨.processing (n + 1), f⟩ ⟨.awaiting (n + 1), f + 1⟩
  | succeed (n f : Nat) : SchedStep ⟨.awaiting (n + 1), f + 1⟩ ⟨.processing n, f⟩
  | failTask (n f : Nat) : SchedStep ⟨.awaiting (n + 1), f + 1⟩ ⟨.idle, f⟩
  | finishTask (f : Nat) : SchedStep ⟨.processing 0, f⟩ ⟨.idle, f⟩

/-- Modelled from the spec: the system starts with an idle worker and no
submission outstanding. -/
def SchedInit : SchedState := ⟨.idle, 0⟩

/-- Modelled from the spec: the states the scheduler can reach from the
initial state by any finite sequence of transitions. -/
def SchedReachable (s : SchedState) : Prop :=
  Relation.ReflTransGen SchedStep SchedInit s

/-- The inductive invariant behind admission control: a submission is
outstanding exactly while the worker is blocked awaiting one. -/
def SchedInv (s : SchedState) : Prop :=
  s.inFlight = match s.phase with
    | .awaiting _ => 1
    | _ => 0

theorem sum_map_const_nat {α : Type} (l : List α) (n : Nat) :
    (l.map fun _ => n).sum = l.length * n := by
  induction l with
  | nil => simp
  | cons a t ih => simp [ih, Nat.succ_mul, Nat.add_comm]

theorem cpExtend_length {α : Type} (acc : List (List α)) (arr : List α) :
    (cpExtend acc arr).length = acc.length * arr.length := by
  simp only [cpExtend, List.length_flatMap, Function.comp_def, List.length_map]
  exact sum_map_const_nat acc arr.length

theorem foldl_cpExtend_length {α : Type} (L : List (List α)) :
    ∀ acc : List (List α),
      (L.foldl cpExtend acc).length = acc.length * (L.map List.length).prod := by
  induction L with
  | nil => intro acc; simp
  | cons arr L ih =>
    intro acc
    simp only [List.foldl_cons, List.map_cons, List.prod_cons]
    rw [ih, cpExtend_length, Nat.mul_assoc]

theorem cartesianProduct_length {α : Type} (L : List (List α)) :
    (cartesianProduct L).length = (L.map List.length).prod := by
  cases L with
  | nil => simp [cartesianProduct]
  | cons arr L =>
    simp only [cartesianProduct, List.isEmpty_cons, if_neg Bool.false_ne_true]
    rw [foldl_cpExtend_length]
    simp

theorem mem_foldl_cpExtend_length {α : Type} (L : List (List α)) :
    ∀ (acc : List (List α)) (n : Nat), (∀ x ∈ acc, x.length = n) →
      ∀ x ∈ L.foldl cpExtend acc, x.length = n + L.length := by
  induction L with
  | nil => intro acc n h x hx; simpa using h x hx
  | cons arr L ih =>
    intro acc n h x hx
    simp only [List.foldl_cons] at hx
    have hstep : ∀ y ∈ cpExtend acc arr, y.length = n + 1 := by
      intro y hy
      simp only [cpExtend, List.mem_flatMap, List.mem_map] at hy
      obtain ⟨a, ha, b, _, hba⟩ := hy
      rw [← hba]
      simp [h a ha]
    have := ih (cpExtend acc arr) (n + 1) hstep x hx
    simp only [List.length_cons]
    omega

theorem mem_cartesianProduct_length {α : Type} (L : List (List α)) (x : List α)
    (hx : x ∈ cartesianProduct L) : x.length = L.length := by
  cases L with
  | nil => simp [cartesianProduct] at hx; simp [hx]
  | cons arr L =>
    simp only [cartesianProduct, List.isEmpty_cons, if_neg Bool.false_ne_true] at hx
    have := mem_foldl_cpExtend_length (arr :: L) [[]] 0 (by simp) x hx
    simpa using this

theorem cpExtend_nodup {α : Type} {acc : List (List α)} {arr : List α}
    (h1 : acc.Nodup) (h2 : arr.Nodup) : (cpExtend acc arr).Nodup := by
  rw [cpExtend, List.nodup_flatMap]
  constructor
  · intro x _
    exact h2.map fun a b hab => by
      have := List.append_cancel_left hab
      simpa using this
  · refine h1.imp ?_
    intro a b hab
    intro z hza hzb
    simp only [List.mem_map] at hza hzb
    obtain ⟨ya, _, hya⟩ := hza
    obtain ⟨yb, _, hyb⟩ := hzb
    have ha : z.dropLast = a := by rw [← hya]; exact List.dropLast_concat
    have hb : z.dropLast = b := by rw [← hyb]; exact List.dropLast_concat
    exact hab (ha ▸ hb)

theorem foldl_cpExtend_nodup {α : Type} (L : List (List α)) :
    ∀ acc : List (List α), acc.Nodup → (∀ a ∈ L, a.Nodup) →
      (L.foldl cpExtend acc).Nodup := by
  induction L with
  | nil => intro acc h _; simpa using h
  | cons arr L ih =>
    intro acc h hL
    simp only [List.foldl_cons]
    exact ih (cpExtend acc arr) (cpExtend_nodup h (hL arr (by simp)))
      fun a ha => hL a (by simp [ha])

theorem cartesianProduct_nodup {α : Type} (L : List (List α))
    (h : ∀ a ∈ L, a.Nodup) : (cartesianProduct L).Nodup := by
  cases L with
  | nil => simp [cartesianProduct]
  | cons arr L =>
    simp only [cartesianProduct, List.isEmpty_cons, if_neg Bool.false_ne_true]
    exact foldl_cpExtend_nodup (arr :: L) [[]] (by simp) h

theorem splitOnChar_ne_nil (c : Char) (cs : List Char) : splitOnChar c cs ≠ [] := by
  cases cs with
  | nil => simp [splitOnChar]
  | cons x xs =>
    simp only [splitOnChar]
    split <;> simp

theorem headD_mem {α : Type} (l : List α) (d : α) (h : l ≠ []) : l.headD d ∈ l := by
  cases l with
  | nil => exact absurd rfl h
  | cons a t => simp [List.headD]

theorem mem_splitOnChar_not_contains (c : Char) (cs : List Char) :
    ∀ p ∈ splitOnChar c cs, c ∉ p := by
  induction cs with
  | nil =>
    intro p hp
    simp [splitOnChar] at hp
    simp [hp]
  | cons x xs ih =>
    intro p hp
    simp only [splitOnChar] at hp
    by_cases hx : x = c
    · rw [if_pos hx] at hp
      rcases List.mem_cons.mp hp with h1 | h2
      · simp [h1]
      · exact ih p h2
    · rw [if_neg hx] at hp
      rcases List.mem_cons.mp hp with h1 | h2
      · subst h1
        intro hmem
        rcases List.mem_cons.mp hmem with h3 | h4
        · exact hx h3.symm
        · exact ih _ (headD_mem _ _ (splitOnChar_ne_nil c xs)) h4
      · exact ih p (List.mem_of_mem_tail h2)

theorem parseSign_fst_of_not_mem {t : List Char} (h : '-' ∉ t) : (parseSign t).1 = 1 := by
  cases t with
  | nil => rfl
  | cons c r =>
    have hc : c ≠ '-' := fun he => h (he ▸ List.mem_cons_self c r)
    by_cases hp : c = '+' <;> simp [parseSign, hc, hp]

theorem parseInt_nonneg {cs : List Char} (h : '-' ∉ cs) {n : Int}
    (hp : parseInt cs = some n) : 0 ≤ n := by
  have hd : '-' ∉ cs.dropWhile Char.isWhitespace :=
    fun hm => h ((List.dropWhile_sublist _).mem hm)
  simp only [parseInt] at hp
  rw [parseSign_fst_of_not_mem hd] at hp
  cases hpn : parseNatPrefix ((parseSign (cs.dropWhile Char.isWhitespace)).2) with
  | none => rw [hpn] at hp; simp at hp
  | some m =>
    rw [hpn] at hp
    simp at hp
    omega

theorem rangeGo_nonneg : ∀ (n : Nat) (i e st : Int), 0 ≤ i → 0 ≤ st →
    ∀ v ∈ rangeGo n i e st, 0 ≤ v := by
  intro n
  induction n with
  | zero => intro i e st _ _ v hv; simp [rangeGo] at hv
  | succ n ih =>
    intro i e st hi hst v hv
    simp only [rangeGo] at hv
    by_cases hie : i ≤ e
    · rw [if_pos hie] at hv
      rcases List.mem_cons.mp hv with h1 | h2
      · rw [h1]; exact_mod_cast hi
      · exact ih (i + st) e st (by omega) hst v h2
    · rw [if_neg hie] at hv
      simp at hv

theorem mkRat_nonneg {a : Int} (b : Nat) (ha : 0 ≤ a) : 0 ≤ mkRat a b := by
  rw [Rat.mkRat_eq_div]
  apply div_nonneg
  · exact_mod_cast ha
  · positivity

theorem parseFloat_nonneg {cs : List Char} (h : '-' ∉ cs) {v : ℚ}
    (hp : parseFloat cs = some v) : 0 ≤ v := by
  have hd : '-' ∉ cs.dropWhile Char.isWhitespace :=
    fun hm => h ((List.dropWhile_sublist _).mem hm)
  simp only [parseFloat] at hp
  rw [parseSign_fst_of_not_mem hd] at hp
  split at hp
  · split at hp
    · exact absurd hp (by simp)
    · have hv := (Option.some.injEq _ _).mp hp.symm
      rw [hv]
      apply mkRat_nonneg
      positivity
  · split at hp
    · exact absurd hp (by simp)
    · have hv := (Option.some.injEq _ _).mp hp.symm
      rw [hv]
      apply mkRat_nonneg
      positivity

theorem zipWith_mk_map_field (nodeId : String) :
    ∀ (fs : List String) (c : List ℚ), c.length = fs.length →
      (List.zipWith (fun f v => Override.mk nodeId f v) fs c).map Override.field = fs := by
  intro fs
  induction fs with
  | nil => intro c _; simp
  | cons f fs ih =>
    intro c h
    cases c with
    | nil => simp at h
    | cons v c => simp [ih c (by simpa using h)]

theorem zipWith_mk_node_id (nodeId : String) :
    ∀ (fs : List String) (c : List ℚ),
      ∀ o ∈ List.zipWith (fun f v => Override.mk nodeId f v) fs c,
        o.node_id = nodeId := by
  intro fs
  induction fs with
  | nil => intro c o ho; simp at ho
  | cons f fs ih =>
    intro c o ho
    cases c with
    | nil => simp at ho
    | cons v c =>
      simp only [List.zipWith_cons_cons] at ho
      rcases List.mem_cons.mp ho with h1 | h2
      · rw [h1]
      · exact ih c o h2

theorem zipWith_mk_inj (nodeId : String) :
    ∀ (fs : List String) (c1 c2 : List ℚ), c1.length = fs.length → c2.length = fs.length →
      List.zipWith (fun f v => Override.mk nodeId f v) fs c1 =
        List.zipWith (fun f v => Override.mk nodeId f v) fs c2 →
      c1 = c2 := by
  intro fs
  induction fs with
  | nil =>
    intro c1 c2 h1 h2 _
    rw [List.length_eq_zero.mp h1, List.length_eq_zero.mp h2]
  | cons f fs ih =>
    intro c1 c2 h1 h2 he
    cases c1 with
    | nil => simp at h1
    | cons a c1 =>
      cases c2 with
      | nil => simp at h2
      | cons b c2 =>
        simp only [List.zipWith_cons_cons, List.cons.injEq] at he
        obtain ⟨hab, hrest⟩ := he
        have hv : a = b := congrArg Override.value hab
        rw [hv, ih c1 c2 (by simpa using h1) (by simpa using h2) hrest]

theorem generateParams_eq (nodeId : String) (sc stc cc : ParamConfig)
    (h : participating sc stc cc ≠ []) :
    generateParams nodeId sc stc cc =
      (cartesianProduct ((participating sc stc cc).map Prod.snd)).map
        (fun combo => List.zipWith (fun f v => Override.mk nodeId f v)
          ((participating sc stc cc).map Prod.fst) combo) := by
  simp only [generateParams]
  rw [if_neg (fun hl => h (List.length_eq_zero.mp hl))]

theorem rangeGo_stop (n : Nat) (i e st : Int) (h : e < i) : rangeGo n i e st = [] := by
  cases n with
  | zero => rfl
  | succ n => simp only [rangeGo]; rw [if_neg (by omega)]

theorem rangeGo_congr : ∀ (n m : Nat) (i e st : Int), 0 < st →
    (e - i).toNat < n → (e - i).toNat < m →
    rangeGo n i e st = rangeGo m i e st := by
  intro n
  induction n with
  | zero => intro m i e st _ hn _; exact absurd hn (Nat.not_lt_zero _)
  | succ n ih =>
    intro m i e st hst hn hm
    cases m with
    | zero => exact absurd hm (Nat.not_lt_zero _)
    | succ m =>
      simp only [rangeGo]
      by_cases hie : i ≤ e
      · rw [if_pos hie, if_pos hie]
        congr 1
        by_cases hie2 : i + st ≤ e
        · exact ih m (i + st) e st hst (by omega) (by omega)
        · rw [rangeGo_stop n _ _ _ (by omega), rangeGo_stop m _ _ _ (by omega)]
      · rw [if_neg hie, if_neg hie]

theorem parseSegmentFuel_eq (fuel : Nat) (part : List Char)
    (h : segFuelNeed part ≤ fuel) : parseSegmentFuel fuel part = parseSegment part := by
  simp only [parseSegmentFuel, parseSegment, segFuelNeed] at h ⊢
  by_cases hc : part.contains '-' = true
  · rw [if_pos hc] at h ⊢
    rw [if_pos hc]
    rcases hr : rangeParts part with ⟨s?, e?, st?⟩
    cases s? with
    | none => rfl
    | some s =>
      cases e? with
      | none => rfl
      | some e =>
        cases st? with
        | none => rfl
        | some st =>
          rw [hr] at h
          simp only at h
          simp only
          by_cases hst : 0 < st
          · rw [if_pos hst] at h
            rw [if_pos hst]
            simp only [rangeValues, if_pos hst]
            exact rangeGo_congr fuel ((e - s).toNat + 1) s e st hst (by omega) (by omega)
          · rw [if_neg hst]
            simp only [rangeValues, if_neg hst]
  · rw [if_neg hc, if_neg hc]

theorem le_foldr_max (l : List Nat) : ∀ x ∈ l, x ≤ l.foldr max 0 := by
  induction l with
  | nil => simp
  | cons a t ih =>
    intro x hx
    simp only [List.foldr_cons]
    rcases List.mem_cons.mp hx with h | h
    · rw [h]; exact le_max_left _ _
    · exact le_trans (ih x h) (le_max_right _ _)

theorem flatMap_eraseIdx {α β : Type} (f : α → List β) :
    ∀ (l : List α) (i : Nat) (h : i < l.length), f (l.get ⟨i, h⟩) = [] →
      l.flatMap f = (l.eraseIdx i).flatMap f := by
  intro l
  induction l with
  | nil => intro i h; simp at h
  | cons a t ih =>
    intro i h hf
    cases i with
    | zero =>
      simp only [List.get] at hf
      simp [List.flatMap_cons, hf]
    | succ i =>
      simp only [List.flatMap_cons, List.eraseIdx_cons_succ]
      rw [ih i (by simpa using h) (by simpa using hf)]

theorem parseSegment_invalid {part : List Char} (hc : part.contains '-' = true)
    (hbad : (rangeParts part).1 = none ∨ (rangeParts part).2.1 = none
      ∨ ∃ st, (rangeParts part).2.2 = some st ∧ st ≤ 0) :
    parseSegment part = [] := by
  simp only [parseSegment, if_pos hc]
  rcases hr : rangeParts part with ⟨s?, e?, st?⟩
  rw [hr] at hbad
  cases s? with
  | none => rfl
  | some s =>
    cases e? with
    | none => rfl
    | some e =>
      cases st? with
      | none => rfl
      | some st =>
        rcases hbad with hb | hb | ⟨st2, hst2, hle⟩
        · exact absurd hb (by simp)
        · exact absurd hb (by simp)
        · have hst : st = st2 := Option.some.inj hst2
          subst hst
          simp only [rangeValues]
          rw [if_neg (by omega)]

theorem parseFloat_none_iff (cs : List Char) :
    parseFloat cs = none ↔ hasNumericLead cs = false := by
  simp only [parseFloat, hasNumericLead]
  rcases hsplit : (parseSign (cs.dropWhile Char.isWhitespace)).2 with _ | ⟨c, rest⟩
  · simp only [List.takeWhile_nil, List.dropWhile_nil, List.headD_nil]
    rw [if_neg (by decide : ¬(' ' = '.'))]
    simp
  · simp only [List.takeWhile_cons, List.dropWhile_cons]
    cases hd : c.isDigit with
    | true =>
      simp only [hd, if_true]
      split <;> simp
    | false =>
      simp only [hd, Bool.false_eq_true, if_false]
      by_cases hdot : c = '.'
      · subst hdot
        simp only [List.headD_cons, if_pos rfl]
        cases rest with
        | nil => simp
        | cons d rs =>
          cases hdd : d.isDigit <;> simp [hdd, List.takeWhile_cons]
      · rw [List.headD_cons, if_neg hdot]
        simp [hd, hdot]

theorem schedStep_preserves_inv {s t : SchedState} (hstep : SchedStep s t)
    (hinv : SchedInv s) : SchedInv t := by
  cases hstep <;> simp [SchedInv] at hinv ⊢ <;> omega

theorem schedReachable_inv {s : SchedState} (h : SchedReachable s) : SchedInv s := by
  induction h with
  | refl => rfl
  | tail _ hstep ih => exact schedStep_preserves_inv hstep ih

theorem participatingDim_eq_nil (f : String) (cfg : ParamConfig)
    (h : cfg.enabled = false ∨ parseValues cfg.values = []) :
    participatingDim f cfg = [] := by
  rcases h with h | h
  · simp [participatingDim, h]
  · by_cases he : cfg.enabled = true
    · simp [participatingDim, he, h]
    · simp [participatingDim, he]

theorem generateParams_congr (nodeId : String) {sc1 stc1 cc1 sc2 stc2 cc2 : ParamConfig}
    (h : participating sc1 stc1 cc1 = participating sc2 stc2 cc2) :
    generateParams nodeId sc1 stc1 cc1 = generateParams nodeId sc2 stc2 cc2 := by
  unfold generateParams
  rw [h]

/-- C3: the value-specification parser satisfies the spec's example
equations: `"1-5" → [1,2,3,4,5]`, `"1-10:2" → [1,3,5,7,9]`,
`"1,2,3" → [1,2,3]`, `"abc" → []`. -/
theorem parseValues_spec_examples :
    parseValues "1-5" = [1, 2, 3, 4, 5]
    ∧ parseValues "1-10:2" = [1, 3, 5, 7, 9]
    ∧ parseValues "1,2,3" = [1, 2, 3]
    ∧ parseValues "abc" = [] := by
  refine ⟨by decide, by decide, by decide, by decide⟩

/-- C2: with seed `"1-2"` and steps `"10,20"` enabled (cfg disabled), the
expansion yields exactly the four combinations
`(seed=1,steps=10),(seed=1,steps=20),(seed=2,steps=10),(seed=2,steps=20)`
in that order: the first-declared dimension varies slowest and each
dimension's values appear in parse order. -/
theorem generateParams_order_example :
    generateParams "3" ⟨true, "1-2"⟩ ⟨true, "10,20"⟩ ⟨false, "7,8,9"⟩ =
      [[⟨"3", "seed", 1⟩, ⟨"3", "steps", 10⟩],
       [⟨"3", "seed", 1⟩, ⟨"3", "steps", 20⟩],
       [⟨"3", "seed", 2⟩, ⟨"3", "steps", 10⟩],
       [⟨"3", "seed", 2⟩, ⟨"3", "steps", 20⟩]] := by decide

/-- C1 counterexample: the claim's distinctness fails as stated.  With the
seed dimension enabled as `"1,1"` (one participating dimension of size 2)
the expansion has exactly `s1 = 2` combinations, but they are equal, not
distinct. -/
theorem generateParams_duplicate_values_not_distinct :
    (participating ⟨true, "1,1"⟩ ⟨false, ""⟩ ⟨false, ""⟩).map (fun d => d.2.length) = [2]
    ∧ (generateParams "3" ⟨true, "1,1"⟩ ⟨false, ""⟩ ⟨false, ""⟩).length = 2
    ∧ ¬ (generateParams "3" ⟨true, "1,1"⟩ ⟨false, ""⟩ ⟨false, ""⟩).Nodup := by
  refine ⟨by decide, by decide, by decide⟩

/-- C1 (amended): for any configuration with at least one participating
dimension, the expansion has exactly `s1*…*sN` elements (`si` the parsed
value-list sizes), each element carries one `(node_id, field, value)` triple
per participating dimension, in dimension order and with the caller's node
id; and the combinations are pairwise distinct provided each participating
dimension's parsed value list has no duplicates. -/
theorem generateParams_count_and_shape (nodeId : String) (sc stc cc : ParamConfig)
    (h : participating sc stc cc ≠ []) :
    (generateParams nodeId sc stc cc).length
        = ((participating sc stc cc).map (fun d => d.2.length)).prod
    ∧ (∀ ps ∈ generateParams nodeId sc stc cc,
        ps.map Override.field = (participating sc stc cc).map Prod.fst
        ∧ ∀ o ∈ ps, o.node_id = nodeId)
    ∧ ((∀ d ∈ participating sc stc cc, d.2.Nodup) →
        (generateParams nodeId sc stc cc).Nodup) := by
  rw [generateParams_eq nodeId sc stc cc h]
  refine ⟨?_, ?_, ?_⟩
  · rw [List.length_map, cartesianProduct_length, List.map_map]
    rfl
  · intro ps hps
    obtain ⟨combo, hcombo, rfl⟩ := List.mem_map.mp hps
    have hlen : combo.length = ((participating sc stc cc).map Prod.fst).length := by
      rw [List.length_map, mem_cartesianProduct_length _ combo hcombo, List.length_map]
    exact ⟨zipWith_mk_map_field nodeId _ combo hlen, zipWith_mk_node_id nodeId _ combo⟩
  · intro hnd
    refine List.Nodup.map_on ?_ ?_
    · intro c1 h1 c2 h2 he
      refine zipWith_mk_inj nodeId _ c1 c2 ?_ ?_ he
      · rw [List.length_map, mem_cartesianProduct_length _ c1 h1, List.length_map]
      · rw [List.length_map, mem_cartesianProduct_length _ c2 h2, List.length_map]
    · refine cartesianProduct_nodup _ ?_
      intro a ha
      obtain ⟨d, hd, rfl⟩ := List.mem_map.mp ha
      exact hnd d hd

theorem generateParams_count_and_shape_witness :
    (generateParams "3" ⟨true, "1-2"⟩ ⟨true, "10,20"⟩ ⟨false, ""⟩).length = 4
    ∧ (generateParams "3" ⟨true, "1-2"⟩ ⟨true, "10,20"⟩ ⟨false, ""⟩).Nodup :=
  ⟨((generateParams_count_and_shape "3" ⟨true, "1-2"⟩ ⟨true, "10,20"⟩ ⟨false, ""⟩
      (by decide)).1).trans (by decide),
   (generateParams_count_and_shape "3" ⟨true, "1-2"⟩ ⟨true, "10,20"⟩ ⟨false, ""⟩
      (by decide)).2.2 (by decide)⟩

/-- C5: if no dimension participates (each one is disabled or parses to no
values) the expansion is the empty list, not `[[]]`; and a dimension whose
specification parses to zero values is interchangeable with a disabled one,
whichever of the three dimensions it is. -/
theorem generateParams_zero_participation (nodeId : String) (sc stc cc : ParamConfig)
    (v w : String) :
    (((sc.enabled = false ∨ parseValues sc.values = []) →
      (stc.enabled = false ∨ parseValues stc.values = []) →
      (cc.enabled = false ∨ parseValues cc.values = []) →
      generateParams nodeId sc stc cc = []))
    ∧ (parseValues v = [] →
        generateParams nodeId ⟨true, v⟩ stc cc = generateParams nodeId ⟨false, w⟩ stc cc
        ∧ generateParams nodeId sc ⟨true, v⟩ cc = generateParams nodeId sc ⟨false, w⟩ cc
        ∧ generateParams nodeId sc stc ⟨true, v⟩ = generateParams nodeId sc stc ⟨false, w⟩) := by
  constructor
  · intro h1 h2 h3
    have hp : participating sc stc cc = [] := by
      rw [participating, participatingDim_eq_nil _ _ h1, participatingDim_eq_nil _ _ h2,
        participatingDim_eq_nil _ _ h3]
      rfl
    simp [generateParams, hp]
  · intro hv
    have hd : ∀ f : String,
        participatingDim f ⟨true, v⟩ = participatingDim f (⟨false, w⟩ : ParamConfig) := by
      intro f
      rw [participatingDim_eq_nil f _ (Or.inr hv), participatingDim_eq_nil f _ (Or.inl rfl)]
    refine ⟨?_, ?_, ?_⟩ <;>
      refine generateParams_congr nodeId ?_ <;>
      · unfold participating
        rw [hd]

theorem generateParams_zero_participation_witness :
    generateParams "3" ⟨false, "1-5"⟩ ⟨false, ""⟩ ⟨false, ""⟩ = []
    ∧ generateParams "3" ⟨true, "abc"⟩ ⟨true, "10,20"⟩ ⟨false, ""⟩
      = generateParams "3" ⟨false, "zz"⟩ ⟨true, "10,20"⟩ ⟨false, ""⟩ :=
  ⟨(generateParams_zero_participation "3" ⟨false, "1-5"⟩ ⟨false, ""⟩ ⟨false, ""⟩ "" "").1
      (Or.inl rfl) (Or.inl rfl) (Or.inl rfl),
   ((generateParams_zero_participation "3" ⟨false, ""⟩ ⟨true, "10,20"⟩ ⟨false, ""⟩
      "abc" "zz").2 (by decide)).1⟩

/-- C6: when the expansion is empty, `handleSubmit` never reaches the
`createTask` call: it stops at a user-facing rejection, and specifically at
the "no valid parameters" rejection whenever the name guard passes. -/
theorem handleSubmit_rejects_empty_expansion (name nodeId : String)
    (sc stc cc : ParamConfig) (wk : Option (List String))
    (h : generateParams nodeId sc stc cc = []) :
    (∀ ps, handleSubmit name nodeId sc stc cc wk ≠ SubmitAction.createdTask ps)
    ∧ (trim name.data ≠ [] →
        handleSubmit name nodeId sc stc cc wk = SubmitAction.rejectedNoParams) := by
  constructor
  · intro ps
    simp only [handleSubmit, h]
    by_cases hn : trim name.data = []
    · rw [if_pos hn]
      simp
    · rw [if_neg hn]
      simp
  · intro hn
    simp only [handleSubmit, h]
    rw [if_neg hn]
    simp

theorem handleSubmit_rejects_empty_expansion_witness :
    handleSubmit "t" "3" ⟨false, ""⟩ ⟨false, ""⟩ ⟨false, ""⟩ (some ["3"])
      = SubmitAction.rejectedNoParams :=
  (handleSubmit_rejects_empty_expansion "t" "3" ⟨false, ""⟩ ⟨false, ""⟩ ⟨false, ""⟩
    (some ["3"]) (by decide)).2 (by decide)

/-- C7: an invalid range segment — a non-numeric start or end bound, or an
explicit step that parses to a number `≤ 0` — contributes no values (it is
dropped, never an error: the parser is a total function), and the rest of
the specification parses exactly as if the segment were removed. -/
theorem parseValues_drops_invalid_segment (input : String) (i : Nat)
    (h : i < (segmentsOf input).length)
    (hc : ((segmentsOf input).get ⟨i, h⟩).contains '-' = true)
    (hbad : (rangeParts ((segmentsOf input).get ⟨i, h⟩)).1 = none
      ∨ (rangeParts ((segmentsOf input).get ⟨i, h⟩)).2.1 = none
      ∨ ∃ st, (rangeParts ((segmentsOf input).get ⟨i, h⟩)).2.2 = some st ∧ st ≤ 0) :
    parseSegment ((segmentsOf input).get ⟨i, h⟩) = []
    ∧ parseValues input = ((segmentsOf input).eraseIdx i).flatMap parseSegment := by
  have hseg := parseSegment_invalid hc hbad
  exact ⟨hseg, by rw [parseValues]; exact flatMap_eraseIdx parseSegment _ i h hseg⟩

theorem parseValues_drops_invalid_segment_witness :
    parseValues "1-3,5-x,9" = [1, 2, 3, 9] :=
  ((parseValues_drops_invalid_segment "1-3,5-x,9" 1 (by decide) (by decide)
      (Or.inr (Or.inl (by decide)))).2).trans (by decide)

/-- C8: every value `parseValues` ever returns is non-negative; in
particular `"-3"` is routed to the range branch (it contains `"-"`), its
start bound is the empty string which is non-numeric, and the segment is
dropped, so negative literals are unrepresentable. -/
theorem parseValues_nonneg :
    (∀ (input : String), ∀ v ∈ parseValues input, 0 ≤ v)
    ∧ (trim ("-3".data)).contains '-' = true
    ∧ (rangeParts (trim ("-3".data))).1 = none
    ∧ parseValues "-3" = [] := by
  refine ⟨?_, by decide, by decide, by decide⟩
  intro input v hv
  rw [parseValues] at hv
  obtain ⟨part, hpart, hvp⟩ := List.mem_flatMap.mp hv
  by_cases hc : part.contains '-' = true
  · simp only [parseSegment, if_pos hc] at hvp
    rcases hr : rangeParts part with ⟨s?, e?, st?⟩
    rw [hr] at hvp
    cases s? with
    | none => simp at hvp
    | some s =>
      cases e? with
      | none => simp at hvp
      | some e =>
        cases st? with
        | none => simp at hvp
        | some st =>
          simp only at hvp
          have hs : 0 ≤ s := by
            have hfst : (rangeParts part).1 = parseInt
                ((splitOnChar '-' ((splitOnChar ':' part).headD [])).headD []) := rfl
            rw [hr] at hfst
            have hmem := headD_mem (splitOnChar '-' ((splitOnChar ':' part).headD [])) []
              (splitOnChar_ne_nil _ _)
            have hnc := mem_splitOnChar_not_contains '-' ((splitOnChar ':' part).headD []) _ hmem
            exact parseInt_nonneg hnc hfst.symm
          simp only [rangeValues] at hvp
          by_cases hst : 0 < st
          · rw [if_pos hst] at hvp
            exact rangeGo_nonneg _ s e st hs (by omega) v hvp
          · rw [if_neg hst] at hvp
            simp at hvp
  · simp only [parseSegment, if_neg hc] at hvp
    have hm : '-' ∉ part := fun hmem => hc (List.elem_iff.mpr hmem)
    cases hf : parseFloat part with
    | none => rw [hf] at hvp; simp at hvp
    | some w =>
      rw [hf] at hvp
      simp at hvp
      rw [hvp]
      exact parseFloat_nonneg hm hf

theorem parseValues_nonneg_witness : (0 : ℚ) ≤ 7 :=
  parseValues_nonneg.1 "7,8" 7 (by decide)

/-- In the exact-integer idealization the `step > 0` guard does bound every
range loop: running the parser with any fuel at least `neededFuel input`
(in particular `(e - start).toNat + 1` per range) yields the same, final
result.  This holds of the source only while the loop variable stays below
`2^53`; on doubles the increment can stop advancing and the loop diverge —
the C9 code bug, `rangeLoop_saturated_increment_diverges`. -/
theorem parseValues_loop_terminates (input : String) (fuel : Nat)
    (h : neededFuel input ≤ fuel) : parseValuesFuel fuel input = parseValues input := by
  simp only [parseValuesFuel, parseValues]
  refine List.flatMap_congr ?_
  intro part hp
  refine parseSegmentFuel_eq fuel part ?_
  calc segFuelNeed part
      ≤ ((segmentsOf input).map segFuelNeed).foldr max 0 :=
        le_foldr_max _ _ (List.mem_map_of_mem _ hp)
    _ ≤ fuel := h

theorem parseValues_loop_terminates_witness :
    parseValuesFuel 6 "1-5" = parseValues "1-5" :=
  parseValues_loop_terminates "1-5" 6 (by decide)

/-- With an increment that strictly advances — exact integer addition of a
positive step — the abstract loop `rangeLoopF` exits and computes exactly
what `rangeGo` computes: `rangeLoopF` is the same source loop, only
observed through its increment. -/
theorem rangeLoopF_exact_eq_rangeGo : ∀ (n : Nat) (i e step : Int), 0 < step →
    (e - i).toNat < n →
    rangeLoopF (fun j => j + step) n i e = some (rangeGo n i e step) := by
  intro n
  induction n with
  | zero => intro i e step _ hn; exact absurd hn (Nat.not_lt_zero _)
  | succ n ih =>
    intro i e step hst hn
    simp only [rangeLoopF, rangeGo]
    by_cases hie : i ≤ e
    · rw [if_pos hie, if_pos hie]
      by_cases hie2 : i + step ≤ e
      · rw [ih (i + step) e step hst (by omega)]
        simp
      · have h1 : rangeLoopF (fun j => j + step) n (i + step) e = some [] := by
          cases n with
          | zero => simp [rangeLoopF, hie2]
          | succ m => simp [rangeLoopF, hie2]
        rw [h1, rangeGo_stop n _ _ _ (by omega)]
        simp
    · rw [if_neg hie, if_neg hie]

/-- C9 (code bug): the `step > 0` guard does not make the range loop
terminate on every input — termination also needs the increment to actually
advance the loop variable, which the exact-integer model grants but the
source's double arithmetic does not.  If the increment fixes the loop
variable while the exit test still fails — exactly the situation of
`"9007199254740992-9007199254740992"`, where `start = end = 2^53` passes
every guard and the IEEE-754 sum `2^53 + 1` rounds back to `2^53` — then
the loop exhausts every fuel bound without ever exiting.  Under exact
integer arithmetic the very same loop terminates
(`rangeLoopF_exact_eq_rangeGo`), so the divergence is introduced purely by
double rounding. -/
theorem rangeLoop_saturated_increment_diverges (next : Int → Int) (i e : Int)
    (hfix : next i = i) (hle : i ≤ e) :
    ∀ fuel : Nat, rangeLoopF next fuel i e = none := by
  intro fuel
  induction fuel with
  | zero => simp [rangeLoopF, hle]
  | succ n ih => simp [rangeLoopF, hle, hfix, ih]

theorem rangeLoop_saturated_increment_diverges_witness :
    rangeLoopF (fun j => j) 5 9007199254740992 9007199254740992 = none :=
  rangeLoop_saturated_increment_diverges (fun j => j) 9007199254740992 9007199254740992
    rfl le_rfl 5

/-- C10: a literal segment goes through `parseFloat`: `"7.5"` parses to the
non-integer 15/2, `"7abc"` parses to `[7]` (numeric prefix accepted), and a
literal segment that yields nothing necessarily has no leading numeric
prefix. -/
theorem parseValues_literal_segments :
    parseValues "7.5" = [mkRat 15 2]
    ∧ parseValues "7abc" = [7]
    ∧ ∀ part : List Char, part.contains '-' = false → parseSegment part = [] →
        hasNumericLead part = false := by
  refine ⟨by decide, by decide, ?_⟩
  intro part hc hseg
  have hcne : ¬ part.contains '-' = true := by
    rw [hc]
    simp
  simp only [parseSegment, if_neg hcne] at hseg
  cases hf : parseFloat part with
  | none => exact (parseFloat_none_iff part).mp hf
  | some w => rw [hf] at hseg; simp at hseg

theorem parseValues_literal_segments_witness :
    hasNumericLead ("xy".data) = false :=
  parseValues_literal_segments.2.2 ("xy".data) (by decide) (by decide)

/-- C4 (spec-modelled: the scheduler source is not in this tree): in every
reachable state of the scheduler transition system, at most one submission
is outstanding against the Execution Engine Adapter — the single worker
blocks on each submission until it terminally succeeds or fails before
starting the next one. -/
theorem scheduler_at_most_one_submission (s : SchedState) (h : SchedReachable s) :
    s.inFlight ≤ 1 := by
  obtain ⟨ph, fl⟩ := s
  have hi := schedReachable_inv h
  unfold SchedInv at hi
  simp only at hi
  rw [hi]
  cases ph <;> simp

theorem scheduler_at_most_one_submission_witness :
    (⟨WorkerPhase.awaiting 1, 1⟩ : SchedState).inFlight ≤ 1 :=
  scheduler_at_most_one_submission ⟨WorkerPhase.awaiting 1, 1⟩
    (Relation.ReflTransGen.tail
      (Relation.ReflTransGen.tail Relation.ReflTransGen.refl (SchedStep.claim 1 0))
      (SchedStep.submit 0 0))

end MiniBatcher
